import Mathlib

/-!
# Verification of `citynetwork/xblock-html` (`html_xblock/html_xblock.py`)

This file gives a shallow embedding of the `HTML5XBlock` component and of the
HTML sanitizer it relies on, and proves the specified properties about them.

The record type `HTML5XBlock`, the read path `HTML5XBlock.html` /
`HTML5XBlock.sanitized_html`, the handler `HTML5XBlock.update_content` and the
translation lookup `HTML5XBlock.get_statici18n_js_url` are translated directly
from `src/html_xblock/html_xblock.py`.

The sanitizer itself lives in `html_xblock/bleaching.py` (class
`SanitizedText`), which is not part of the provided sources; it is modelled
from the specification (§4.1): a pure, total, tolerant HTML cleaner built as
parse / clean / serialize over a node forest.  Text is modelled as `List Char`
throughout the core, with `String` wrappers at the API boundary.
-/

/-- An HTML node: either character data, or an element with a tag name, an
attribute list (name/value pairs) and child nodes. -/
inductive Node where
  | text (s : List Char) : Node
  | elem (tag : List Char) (attrs : List (List Char × List Char)) (children : List Node) : Node

/-- Size measure for forests, used for parser fuel accounting: each node costs
one, and each attribute of an element costs two (the attribute parser spends up
to two fuel units per attribute). -/
def sizeF : List Node → Nat
  | [] => 0
  | .text _ :: ns => 1 + sizeF ns
  | .elem _ a c :: ns => 1 + 2 * a.length + sizeF c + sizeF ns

/-- Custom induction principle for forests of nested `Node`s. -/
theorem forestInd (P : List Node → Prop) (h0 : P [])
    (ht : ∀ s ns, P ns → P (.text s :: ns))
    (he : ∀ t a c ns, P c → P ns → P (.elem t a c :: ns)) : ∀ l, P l := by
  have key : ∀ n, ∀ l, sizeF l ≤ n → P l := by
    intro n
    induction n with
    | zero =>
      intro l hl
      cases l with
      | nil => exact h0
      | cons x xs => cases x <;> simp [sizeF] at hl
    | succ n ih =>
      intro l hl
      cases l with
      | nil => exact h0
      | cons x xs =>
        cases x with
        | text s =>
          refine ht s xs (ih xs ?_)
          simp [sizeF] at hl; omega
        | elem t a c =>
          refine he t a c xs (ih c ?_) (ih xs ?_) <;> (simp [sizeF] at hl; omega)
  intro l
  exact key (sizeF l) l (Nat.le_refl _)

/-! ## Character scanning and escaping primitives -/

/-- Collect the longest prefix whose characters satisfy `p`, returning it
together with the rest of the input. -/
def scanWhile (p : Char → Bool) : List Char → List Char × List Char
  | [] => ([], [])
  | c :: cs =>
    if p c then
      let r := scanWhile p cs
      (c :: r.1, r.2)
    else ([], c :: cs)

/-- `startsWithL pat l` checks whether `pat` is an initial segment of `l`. -/
def startsWithL : List Char → List Char → Bool
  | [], _ => true
  | _ :: _, [] => false
  | p :: ps, c :: cs => p == c && startsWithL ps cs

/-- Characters allowed in tag and attribute names. -/
def isNameChar (c : Char) : Bool := c.isAlpha || c.isDigit

/-- Lowercase a character list (HTML tag and attribute names are
case-insensitive; the parser normalizes them to lowercase). -/
def lowerL (l : List Char) : List Char := l.map Char.toLower

/-- Escape one character of text content: `&`, `<` and `>` become entities. -/
def escTextC (c : Char) : List Char :=
  if c = '&' then "&amp;".data
  else if c = '<' then "&lt;".data
  else if c = '>' then "&gt;".data
  else [c]

/-- Escape text content character-wise. -/
def escText : List Char → List Char
  | [] => []
  | c :: cs => escTextC c ++ escText cs

/-- Escape one character of a double-quoted attribute value: like text, plus
the double quote. -/
def escAttrC (c : Char) : List Char :=
  if c = '"' then "&quot;".data else escTextC c

/-- Escape an attribute value character-wise. -/
def escAttr : List Char → List Char
  | [] => []
  | c :: cs => escAttrC c ++ escAttr cs

/-- Decode the four entities `&lt; &gt; &amp; &quot;`; any other ampersand is
kept literally (tolerant decoding). -/
def unescape : List Char → List Char
  | [] => []
  | '&' :: 'l' :: 't' :: ';' :: cs => '<' :: unescape cs
  | '&' :: 'g' :: 't' :: ';' :: cs => '>' :: unescape cs
  | '&' :: 'a' :: 'm' :: 'p' :: ';' :: cs => '&' :: unescape cs
  | '&' :: 'q' :: 'u' :: 'o' :: 't' :: ';' :: cs => '"' :: unescape cs
  | c :: cs => c :: unescape cs

/-! ## Tolerant HTML parser

Modelled from the spec: the parsing front end of `bleaching.SanitizedText`
(file `html_xblock/bleaching.py`, absent from the sources).  Per §4.1 it must
be "best-effort tolerant parsing, never fails the caller"; malformed markup
falls back to literal text. -/

/-- Consume a matching close tag `</name>` if it is next; otherwise leave the
input unchanged (tolerating unclosed elements). -/
def expectClose (name : List Char) (cs : List Char) : List Char :=
  let target := '<' :: '/' :: name ++ ['>']
  if startsWithL target cs then cs.drop target.length else cs

/-- Parse the attribute list of an open tag, up to and including the closing
`>`.  Attribute values are double-quoted and entity-decoded; a valueless
attribute gets the empty value; junk characters are skipped. -/
def parseAttrs : Nat → List Char → List (List Char × List Char) × List Char
  | 0, cs => ([], cs)
  | fuel + 1, cs =>
    match cs with
    | [] => ([], [])
    | c :: cs' =>
      if c = '>' then ([], cs')
      else if c.isAlpha then
        let nm := scanWhile isNameChar (c :: cs')
        match nm.2 with
        | '=' :: '"' :: r2 =>
          let v := scanWhile (fun x => x != '"') r2
          let r4 := match v.2 with | '"' :: r => r | _ => v.2
          let rest := parseAttrs fuel r4
          ((lowerL nm.1, unescape v.1) :: rest.1, rest.2)
        | _ =>
          let rest := parseAttrs fuel nm.2
          ((lowerL nm.1, []) :: rest.1, rest.2)
      else parseAttrs fuel cs'

/-- Parse a sequence of sibling nodes; stops at end of input or at a closing
tag (`</`).  `<` not introducing a tag is kept as literal text; tag and
attribute names are lowercased; mismatched close tags are left for the
caller. -/
def parseNodes : Nat → List Char → List Node × List Char
  | 0, cs => ([], cs)
  | fuel + 1, cs =>
    match cs with
    | [] => ([], [])
    | '<' :: '/' :: _ => ([], cs)
    | ['<'] => ([.text ['<']], [])
    | '<' :: d :: cs' =>
      if d.isAlpha then
        let nm := scanWhile isNameChar (d :: cs')
        let name := lowerL nm.1
        let ar := parseAttrs (fuel + 1) nm.2
        let ch := parseNodes fuel ar.2
        let r4 := expectClose name ch.2
        let sib := parseNodes fuel r4
        (.elem name ar.1 ch.1 :: sib.1, sib.2)
      else
        let sib := parseNodes fuel (d :: cs')
        (.text ['<'] :: sib.1, sib.2)
    | cs =>
      let raw := scanWhile (fun x => x != '<') cs
      let sib := parseNodes fuel raw.2
      (.text (unescape raw.1) :: sib.1, sib.2)

/-- Drop characters up to and including the next `>` (used to discard a stray
close tag at the top level). -/
def skipClose : List Char → List Char
  | [] => []
  | c :: cs => if c = '>' then cs else skipClose cs

/-- Top-level parsing loop: parse siblings; a stray close tag stopping the
sibling parser is discarded and parsing resumes. -/
def parseTopAux : Nat → List Char → List Node
  | 0, _ => []
  | fuel + 1, cs =>
    let r := parseNodes (fuel + 1) cs
    match r.2 with
    | [] => r.1
    | rest => r.1 ++ parseTopAux fuel (skipClose rest)

/-- Parse a whole input, tolerantly, into a forest. -/
def parseTopL (cs : List Char) : List Node := parseTopAux (cs.length + 1) cs

/-! ## Sanitization policy

Modelled from the spec: the allow/deny policy of `bleaching.SanitizedText`
(§3 "allowlist of tag names; allowlist of attribute names", §4.1). -/

/-- Tags whose whole subtree is removed: script-capable containers.  Per §4.1,
"`<script>` tags entirely removed (including contents)". -/
def dropWhole : List (List Char) :=
  ["script".data, "style".data, "iframe".data, "object".data, "embed".data,
   "noscript".data]

/-- Allowlisted benign structural/formatting tags (§4.1: paragraphs, emphasis,
links, images, lists, tables and similar). -/
def allowedTags : List (List Char) :=
  ["a".data, "abbr".data, "b".data, "blockquote".data, "br".data, "code".data,
   "div".data, "em".data, "h1".data, "h2".data, "h3".data, "h4".data,
   "h5".data, "h6".data, "hr".data, "i".data, "img".data, "li".data,
   "ol".data, "p".data, "pre".data, "span".data, "strong".data,
   "table".data, "tbody".data, "td".data, "th".data, "thead".data,
   "tr".data, "u".data, "ul".data]

/-- Allowlisted attribute names (none is an event handler). -/
def allowedAttrNames : List (List Char) :=
  ["href".data, "src".data, "alt".data, "title".data, "class".data]

/-- Attributes whose values are URLs and get the safe-scheme check. -/
def urlAttrs : List (List Char) := ["href".data, "src".data]

/-- The scheme of a URL: the characters before the first `:`, provided it
occurs before any `/`, `?` or `#`; `none` for relative references. -/
def findScheme : List Char → Option (List Char)
  | [] => none
  | c :: cs =>
    if c = ':' then some []
    else if c = '/' || c = '?' || c = '#' then none
    else
      match findScheme cs with
      | some s => some (c :: s)
      | none => none

/-- §4.1: "`href`/`src` values restricted to safe schemes (http, https,
mailto, relative paths)". -/
def safeUrl (v : List Char) : Bool :=
  match findScheme v with
  | none => true
  | some s => ["http".data, "https".data, "mailto".data].contains (lowerL s)

/-- Keep an attribute iff its name is allowlisted and, for URL-valued
attributes, the value's scheme is safe. -/
def cleanAttrs (attrs : List (List Char × List Char)) :
    List (List Char × List Char) :=
  attrs.filter fun p =>
    allowedAttrNames.contains p.1 && (!(urlAttrs.contains p.1) || safeUrl p.2)

mutual
/-- Clean a single node: drop script-capable subtrees entirely, keep
allowlisted elements with filtered attributes, and unwrap other elements to
their cleaned children.  Text is kept (it is re-escaped by the serializer). -/
def cleanN : Node → List Node
  | .text s => [.text s]
  | .elem t a c =>
    if dropWhole.contains t then []
    else if allowedTags.contains t then [.elem t (cleanAttrs a) (cleanList c)]
    else cleanList c

/-- Clean a forest node by node. -/
def cleanList : List Node → List Node
  | [] => []
  | x :: ns => cleanN x ++ cleanList ns
end

mutual
/-- Normalize below a single node. -/
def normN : Node → Node
  | .text s => .text s
  | .elem t a c => .elem t a (normList c)

/-- Normalize a forest: drop empty text nodes and merge adjacent text nodes,
recursively. -/
def normList : List Node → List Node
  | [] => []
  | .text s :: ns =>
    if s.isEmpty then normList ns
    else
      match normList ns with
      | .text s2 :: r => .text (s ++ s2) :: r
      | r => .text s :: r
  | x :: ns => normN x :: normList ns
end

/-- The full cleaning pass on a parsed forest. -/
def cleanF (l : List Node) : List Node := normList (cleanList l)

theorem normList_elem_cons (t : List Char) (a : List (List Char × List Char))
    (c ns : List Node) :
    normList (.elem t a c :: ns) = .elem t a (normList c) :: normList ns := rfl

/-! ## Serializer -/

/-- Serialize an attribute list: ` name="value"` for each attribute, with the
value escaped. -/
def renderAttrs : List (List Char × List Char) → List Char
  | [] => []
  | (n, v) :: rest => ' ' :: n ++ '=' :: '"' :: escAttr v ++ '"' :: renderAttrs rest

mutual
/-- Serialize one node: text is escaped, elements get explicit open and close
tags. -/
def renderN : Node → List Char
  | .text s => escText s
  | .elem t a c => '<' :: t ++ renderAttrs a ++ '>' :: renderL c ++ '<' :: '/' :: t ++ ['>']

/-- Serialize a forest. -/
def renderL : List Node → List Char
  | [] => []
  | x :: ns => renderN x ++ renderL ns
end

/-! ## The sanitizer -/

/-- Modelled from the spec: the sanitizer of `html_xblock/bleaching.py`
(class `SanitizedText`), absent from the sources.  §4.1: a pure function from
HTML strings to cleaned HTML strings — tolerant parse, allowlist-based clean,
serialize. -/
def sanitizeL (cs : List Char) : List Char := renderL (cleanF (parseTopL cs))

/-- Modelled from the spec: the string-level sanitizer (the
`SanitizedText(value).value` operation of the missing `bleaching.py`). -/
def sanitize (s : String) : String := String.mk (sanitizeL s.data)

/-! ## The XBlock (from `src/html_xblock/html_xblock.py`) -/

/-- The persisted fields of `HTML5XBlock` (lines 20-51 of
`html_xblock/html_xblock.py`): display name, raw HTML body (`data`), the
JavaScript-allowed flag, and the editor mode. -/
structure HTML5XBlock where
  display_name : String := "Text"
  data : String := ""
  allow_javascript : Bool := false
  editor : String := "visual"

/-- `HTML5XBlock.sanitized_html` (lines 187-193): a property that returns a
sanitized text field of the existing data object, i.e.
`SanitizedText(self.data).value`. -/
def HTML5XBlock.sanitized_html (b : HTML5XBlock) : String := sanitize b.data

/-- `HTML5XBlock.html` (lines 195-203): the module content according to
`allow_javascript` — the raw data if it is true, the sanitized data
otherwise. -/
def HTML5XBlock.html (b : HTML5XBlock) : String :=
  if b.allow_javascript then b.data else b.sanitized_html

/-- `HTML5XBlock.update_content` (lines 105-112).  The JSON payload is a
string-keyed dictionary; `data['content']` raises a `KeyError` when the key is
missing (modelled as `Except.error`, with the record state returned alongside
the response).  Otherwise the stored body is replaced by the payload value and
`{'content': self.data}` is returned. -/
def HTML5XBlock.update_content (b : HTML5XBlock)
    (data : List (String × String)) :
    HTML5XBlock × Except String (List (String × String)) :=
  match List.lookup "content" data with
  | none => (b, Except.error "KeyError: content")
  | some c =>
    let b2 := { b with data := c }
    (b2, Except.ok [("content", b2.data)])

/-- The translation-bundle path template of `_get_statici18n_js_url`
(line 242): `public/js/translations/{locale_code}/text.js`. -/
def text_js (code : String) : String :=
  "public/js/translations/" ++ code ++ "/text.js"

/-- The characters of a locale code before the first `-`
(`locale_code.split('-')[0]`, line 243). -/
def takeUntilDash : List Char → List Char
  | [] => []
  | c :: cs => if c = '-' then [] else c :: takeUntilDash cs

/-- `locale_code.split('-')[0]`: the bare language code. -/
def langCode (locale : String) : String := String.mk (takeUntilDash locale.data)

/-- The fallback loop of `_get_statici18n_js_url` (lines 244-249): return the
path for the first candidate code whose resource exists. -/
def firstExisting (ex : String → Bool) : List String → Option String
  | [] => none
  | c :: cs => if ex (text_js c) then some (text_js c) else firstExisting ex cs

/-- `HTML5XBlock._get_statici18n_js_url` (lines 233-249), parameterized by the
ambient state it consults: `locale` is `translation.get_language()` (with
`none` for Python's `None`) and `ex` is `pkg_resources.resource_exists` for
this package.  Candidates are tried in the order full locale code, bare
language code, `en`; if none exists the result is `None`. -/
def HTML5XBlock.get_statici18n_js_url (locale : Option String)
    (ex : String → Bool) : Option String :=
  match locale with
  | none => none
  | some locale_code => firstExisting ex [locale_code, langCode locale_code, "en"]

/-! ## Facts about the fixed policy lists -/

theorem allowedTags_lower : ∀ t ∈ allowedTags, lowerL t = t := by decide

theorem allowedTags_shape :
    ∀ t ∈ allowedTags, t ≠ [] ∧ (t.headD ' ').isAlpha = true ∧ t.all isNameChar = true := by
  decide

theorem allowedTags_not_dropped : ∀ t ∈ allowedTags, dropWhole.contains t = false := by
  decide

theorem allowedTags_no_script : ∀ t ∈ allowedTags, t ≠ "script".data := by decide

theorem allowedAttrNames_lower : ∀ n ∈ allowedAttrNames, lowerL n = n := by decide

theorem allowedAttrNames_shape :
    ∀ n ∈ allowedAttrNames,
      n ≠ [] ∧ (n.headD ' ').isAlpha = true ∧ n.all isNameChar = true := by
  decide

theorem allowedAttrNames_no_on :
    ∀ n ∈ allowedAttrNames, startsWithL "on".data n = false := by decide

/-! ## Scanning lemmas -/

theorem scanWhile_append (p : Char → Bool) (l r : List Char)
    (hl : ∀ c ∈ l, p c = true)
    (hr : r = [] ∨ ∃ c r2, r = c :: r2 ∧ p c = false) :
    scanWhile p (l ++ r) = (l, r) := by
  induction l with
  | nil =>
    rcases hr with rfl | ⟨c, r2, rfl, hc⟩
    · rfl
    · simp [scanWhile, hc]
  | cons c l ih =>
    have hc : p c = true := hl c (by simp)
    have ih2 := ih (fun d hd => hl d (by simp [hd]))
    simp only [List.cons_append, scanWhile, hc, if_pos, List.append_eq, ih2]

theorem startsWithL_append (l r : List Char) : startsWithL l (l ++ r) = true := by
  induction l with
  | nil => rfl
  | cons c l ih => simp [startsWithL, ih]

theorem expectClose_append (name rest : List Char) :
    expectClose name ('<' :: '/' :: (name ++ '>' :: rest)) = rest := by
  have h1 : '<' :: '/' :: (name ++ '>' :: rest)
      = ('<' :: '/' :: name ++ ['>']) ++ rest := by simp
  rw [h1]
  simp only [expectClose]
  rw [startsWithL_append]
  simp [List.drop_left]

/-! ## Escaping lemmas -/

theorem unescape_nil : unescape [] = [] := rfl

set_option maxHeartbeats 1000000 in
theorem unescape_cons_ne (c : Char) (cs : List Char) (hc : c ≠ '&') :
    unescape (c :: cs) = c :: unescape cs := by
  rw [unescape.eq_def]
  split <;> simp_all

theorem unescape_escTextC (c : Char) (r : List Char) :
    unescape (escTextC c ++ r) = c :: unescape r := by
  by_cases h1 : c = '&'
  · subst h1
    rfl
  · by_cases h2 : c = '<'
    · subst h2
      rfl
    · by_cases h3 : c = '>'
      · subst h3
        rfl
      · rw [show escTextC c = [c] by simp [escTextC, h1, h2, h3]]
        exact unescape_cons_ne c r h1

theorem unescape_escAttrC (c : Char) (r : List Char) :
    unescape (escAttrC c ++ r) = c :: unescape r := by
  by_cases h : c = '"'
  · subst h
    rfl
  · rw [show escAttrC c = escTextC c by simp [escAttrC, h]]
    exact unescape_escTextC c r

theorem unescape_escText (l : List Char) : unescape (escText l) = l := by
  induction l with
  | nil => exact unescape_nil
  | cons c cs ih =>
    rw [escText, unescape_escTextC c (escText cs), ih]

theorem unescape_escAttr (l : List Char) : unescape (escAttr l) = l := by
  induction l with
  | nil => exact unescape_nil
  | cons c cs ih =>
    rw [escAttr, unescape_escAttrC c (escAttr cs), ih]

theorem lt_not_mem_escTextC (x c : Char) (hx : x = '<') : x ∉ escTextC c := by
  subst hx
  unfold escTextC
  split
  · decide
  · split
    · decide
    · split
      · decide
      · rename_i h1 h2 h3
        simp
        exact fun h => h2 h.symm

theorem lt_not_mem_escText (l : List Char) : '<' ∉ escText l := by
  induction l with
  | nil => simp [escText]
  | cons c cs ih =>
    simp only [escText, List.mem_append]
    rintro (h | h)
    · exact lt_not_mem_escTextC '<' c rfl h
    · exact ih h

theorem quot_not_mem_escAttrC (c : Char) : '"' ∉ escAttrC c := by
  unfold escAttrC
  split
  · decide
  · rename_i hq
    unfold escTextC
    split
    · decide
    · split
      · decide
      · split
        · decide
        · simp
          exact fun h => hq h.symm

theorem quot_not_mem_escAttr (l : List Char) : '"' ∉ escAttr l := by
  induction l with
  | nil => simp [escAttr]
  | cons c cs ih =>
    simp only [escAttr, List.mem_append]
    rintro (h | h)
    · exact quot_not_mem_escAttrC c h
    · exact ih h

/-! ## Well-formed (clean) forests -/

/-- The per-attribute condition enforced by `cleanAttrs`. -/
def attrOk (p : List Char × List Char) : Bool :=
  allowedAttrNames.contains p.1 && (!(urlAttrs.contains p.1) || safeUrl p.2)

/-- All attributes of the list pass the cleaning filter. -/
def wfAttrs (l : List (List Char × List Char)) : Bool := l.all attrOk

/-- Whether a forest starts with a text node. -/
def headIsText : List Node → Bool
  | .text _ :: _ => true
  | _ => false

mutual
/-- Well-formedness of a single node: nonempty text, or an allowlisted element
with filtered attributes and well-formed children. -/
def wfN : Node → Bool
  | .text s => !s.isEmpty
  | .elem t a c => allowedTags.contains t && wfAttrs a && wfList c

/-- Well-formedness of a cleaned, normalized forest: text nodes are nonempty
and never adjacent, element tags are allowlisted, and attributes pass the
cleaning filter, recursively. -/
def wfList : List Node → Bool
  | [] => true
  | .text s :: ns => wfN (.text s) && !headIsText ns && wfList ns
  | x :: ns => wfN x && wfList ns
end

mutual
/-- Tag/attribute-level soundness of one node. -/
def tagOkN : Node → Bool
  | .text _ => true
  | .elem t a c => allowedTags.contains t && wfAttrs a && tagOkList c

/-- Tag/attribute-level soundness, without the text-shape constraints (the
state of a forest after `cleanList`, before `normList`). -/
def tagOkList : List Node → Bool
  | [] => true
  | x :: ns => tagOkN x && tagOkList ns
end

theorem cleanAttrs_wf (a : List (List Char × List Char)) :
    wfAttrs (cleanAttrs a) = true := by
  have : ∀ p ∈ cleanAttrs a, attrOk p = true := by
    intro p hp
    have := List.mem_filter.mp hp
    exact this.2
  exact List.all_eq_true.mpr this

theorem cleanAttrs_id (a : List (List Char × List Char)) (h : wfAttrs a = true) :
    cleanAttrs a = a :=
  List.filter_eq_self.mpr (List.all_eq_true.mp h)

theorem tagOkList_append (x y : List Node) :
    tagOkList (x ++ y) = (tagOkList x && tagOkList y) := by
  induction x using forestInd with
  | h0 => simp [tagOkList]
  | ht s ns ih => simp [tagOkList, tagOkN, ih]
  | he t a c ns ih1 ih2 => simp [tagOkList, tagOkN, ih2, Bool.and_assoc]


theorem wfList_text_iff (s : List Char) (ns : List Node) :
    wfList (.text s :: ns) = true ↔
      s.isEmpty = false ∧ headIsText ns = false ∧ wfList ns = true := by
  simp [wfList, wfN, Bool.and_eq_true, Bool.not_eq_true', and_assoc]

theorem wfList_elem_iff (t : List Char) (a : List (List Char × List Char))
    (c ns : List Node) :
    wfList (.elem t a c :: ns) = true ↔
      t ∈ allowedTags ∧ wfAttrs a = true ∧ wfList c = true ∧ wfList ns = true := by
  simp [wfList, wfN, Bool.and_eq_true, and_assoc]

theorem cleanList_tagOk (l : List Node) : tagOkList (cleanList l) = true := by
  induction l using forestInd with
  | h0 => simp [cleanList, tagOkList]
  | ht s ns ih => simp [cleanList, cleanN, tagOkList, tagOkN, ih]
  | he t a c ns ih1 ih2 =>
    by_cases h1 : t ∈ dropWhole
    · simp [cleanList, cleanN, h1, ih2]
    · by_cases h2 : t ∈ allowedTags
      · simp [cleanList, cleanN, h1, h2, tagOkList, tagOkN, cleanAttrs_wf, ih1, ih2]
      · simp [cleanList, cleanN, h1, h2, tagOkList_append, ih1, ih2]

theorem normList_wf (l : List Node) (h : tagOkList l = true) :
    wfList (normList l) = true := by
  induction l using forestInd with
  | h0 => simp [normList, wfList]
  | ht s ns ih =>
    have hns : tagOkList ns = true := by simpa [tagOkList, tagOkN] using h
    have ihns := ih hns
    by_cases hs : s.isEmpty = true
    · simp [normList, hs, ihns]
    · rw [normList, if_neg hs]
      cases hmatch : normList ns with
      | nil => simp [wfList, wfN, headIsText, hs]
      | cons x r =>
        cases x with
        | text s2 =>
          rw [hmatch] at ihns
          obtain ⟨h1, h2, h3⟩ := (wfList_text_iff s2 r).mp ihns
          refine (wfList_text_iff (s ++ s2) r).mpr ⟨?_, h2, h3⟩
          cases s with
          | nil => simp at hs
          | cons c s' => simp
        | elem t2 a2 c2 =>
          rw [hmatch] at ihns
          refine (wfList_text_iff s (Node.elem t2 a2 c2 :: r)).mpr ⟨?_, rfl, ihns⟩
          simpa using hs
  | he t a c ns ih1 ih2 =>
    have h' := h
    simp only [tagOkList, tagOkN, Bool.and_eq_true] at h'
    obtain ⟨⟨⟨hmem, hattr⟩, hc⟩, hns⟩ := h'
    rw [normList_elem_cons]
    refine (wfList_elem_iff t a (normList c) (normList ns)).mpr
      ⟨by simpa using hmem, hattr, ih1 hc, ih2 hns⟩

theorem cleanF_wf (l : List Node) : wfList (cleanF l) = true :=
  normList_wf (cleanList l) (cleanList_tagOk l)

theorem cleanList_id (l : List Node) (h : wfList l = true) : cleanList l = l := by
  induction l using forestInd with
  | h0 => simp [cleanList]
  | ht s ns ih =>
    obtain ⟨_, _, hns⟩ := (wfList_text_iff s ns).mp h
    simp [cleanList, cleanN, ih hns]
  | he t a c ns ih1 ih2 =>
    obtain ⟨hmem, hattr, hc, hns⟩ := (wfList_elem_iff t a c ns).mp h
    have hdrop : dropWhole.contains t = false := allowedTags_not_dropped t hmem
    have hdrop2 : ¬t ∈ dropWhole := by simpa using hdrop
    simp [cleanList, cleanN, hdrop2, hmem, cleanAttrs_id a hattr, ih1 hc, ih2 hns]

theorem normList_id (l : List Node) (h : wfList l = true) : normList l = l := by
  induction l using forestInd with
  | h0 => simp [normList]
  | ht s ns ih =>
    obtain ⟨hs, hh, hns⟩ := (wfList_text_iff s ns).mp h
    have hs' : ¬s.isEmpty = true := by simp [hs]
    have hns' := ih hns
    rw [normList, if_neg hs', hns']
    cases ns with
    | nil => rfl
    | cons x ns2 =>
      cases x with
      | text s2 => simp [headIsText] at hh
      | elem t2 a2 c2 => rfl
  | he t a c ns ih1 ih2 =>
    obtain ⟨_, _, hc, hns⟩ := (wfList_elem_iff t a c ns).mp h
    simp [normList_elem_cons, ih1 hc, ih2 hns]

theorem cleanF_id (l : List Node) (h : wfList l = true) : cleanF l = l := by
  rw [cleanF, cleanList_id l h, normList_id l h]

/-! ## Absence of script-capable constructs in clean forests -/

mutual
/-- A node is neither a `script` element nor carries an `on*` attribute,
recursively. -/
def noScriptN : Node → Bool
  | .text _ => true
  | .elem t a c =>
    !(t == "script".data) && (a.all fun p => !startsWithL "on".data p.1) &&
      noScriptF c

/-- A forest contains no `script` element and no attribute whose name begins
with `on`, recursively. -/
def noScriptF : List Node → Bool
  | [] => true
  | x :: ns => noScriptN x && noScriptF ns
end

mutual
/-- Every `href`/`src` attribute value of the node has a safe scheme,
recursively. -/
def urlSafeN : Node → Bool
  | .text _ => true
  | .elem _ a c =>
    (a.all fun p => !(urlAttrs.contains p.1) || safeUrl p.2) && urlSafeF c

/-- Every `href`/`src` attribute value in the forest has a safe scheme,
recursively. -/
def urlSafeF : List Node → Bool
  | [] => true
  | x :: ns => urlSafeN x && urlSafeF ns
end

theorem wf_noScript (l : List Node) (h : wfList l = true) : noScriptF l = true := by
  induction l using forestInd with
  | h0 => simp [noScriptF]
  | ht s ns ih =>
    obtain ⟨_, _, hns⟩ := (wfList_text_iff s ns).mp h
    simp [noScriptF, noScriptN, ih hns]
  | he t a c ns ih1 ih2 =>
    obtain ⟨hmem, hattr, hc, hns⟩ := (wfList_elem_iff t a c ns).mp h
    have h1 : ¬t = "script".data := allowedTags_no_script t hmem
    have h2 : ∀ p ∈ a, startsWithL "on".data p.1 = false := by
      intro p hp
      have := List.all_eq_true.mp hattr p hp
      simp only [attrOk, Bool.and_eq_true] at this
      have hmemn : p.1 ∈ allowedAttrNames := by simpa using this.1
      exact allowedAttrNames_no_on p.1 hmemn
    simp only [noScriptF, noScriptN, Bool.and_eq_true]
    refine ⟨⟨⟨by simp [h1], ?_⟩, ih1 hc⟩, ih2 hns⟩
    exact List.all_eq_true.mpr fun p hp => by simp [h2 p hp]

theorem wf_urlSafe (l : List Node) (h : wfList l = true) : urlSafeF l = true := by
  induction l using forestInd with
  | h0 => simp [urlSafeF]
  | ht s ns ih =>
    obtain ⟨_, _, hns⟩ := (wfList_text_iff s ns).mp h
    simp [urlSafeF, urlSafeN, ih hns]
  | he t a c ns ih1 ih2 =>
    obtain ⟨hmem, hattr, hc, hns⟩ := (wfList_elem_iff t a c ns).mp h
    simp only [urlSafeF, urlSafeN, Bool.and_eq_true]
    refine ⟨⟨?_, ih1 hc⟩, ih2 hns⟩
    exact List.all_eq_true.mpr fun p hp => by
      have := List.all_eq_true.mp hattr p hp
      simp only [attrOk, Bool.and_eq_true] at this
      exact this.2

/-! ## Parser/serializer round trip on well-formed forests -/

/-- Inputs on which the sibling parser stops immediately: end of input or a
close tag. -/
def StopperL (cs : List Char) : Prop := cs = [] ∨ ∃ r, cs = '<' :: '/' :: r

theorem parseNodes_stopper (fuel : Nat) (cs : List Char) (h : StopperL cs) :
    parseNodes fuel cs = ([], cs) := by
  cases fuel with
  | zero => simp [parseNodes]
  | succ f =>
    rcases h with rfl | ⟨r, rfl⟩
    · simp [parseNodes]
    · simp [parseNodes]

theorem parseNodes_cons_text (fuel : Nat) (c : Char) (tl : List Char) (hc : c ≠ '<') :
    parseNodes (fuel + 1) (c :: tl) =
      ((.text (unescape (scanWhile (fun x => x != '<') (c :: tl)).1) ::
          (parseNodes fuel (scanWhile (fun x => x != '<') (c :: tl)).2).1),
        (parseNodes fuel (scanWhile (fun x => x != '<') (c :: tl)).2).2) := by
  rw [parseNodes.eq_def]
  split
  next heq => exact (Nat.succ_ne_zero fuel heq).elim
  next fuel2 heq =>
    have hf : fuel = fuel2 := Nat.succ_injective heq
    subst hf
    split
    · simp_all
    · simp_all
    · simp_all
    · simp_all
    · rfl

theorem parseNodes_cons_tag (fuel : Nat) (d : Char) (cs' : List Char)
    (hd : d.isAlpha = true) :
    parseNodes (fuel + 1) ('<' :: d :: cs') =
      ((.elem (lowerL (scanWhile isNameChar (d :: cs')).1)
          (parseAttrs (fuel + 1) (scanWhile isNameChar (d :: cs')).2).1
          (parseNodes fuel (parseAttrs (fuel + 1) (scanWhile isNameChar (d :: cs')).2).2).1 ::
        (parseNodes fuel
          (expectClose (lowerL (scanWhile isNameChar (d :: cs')).1)
            (parseNodes fuel (parseAttrs (fuel + 1) (scanWhile isNameChar (d :: cs')).2).2).2)).1),
       (parseNodes fuel
          (expectClose (lowerL (scanWhile isNameChar (d :: cs')).1)
            (parseNodes fuel (parseAttrs (fuel + 1) (scanWhile isNameChar (d :: cs')).2).2).2)).2) := by
  rw [parseNodes.eq_def]
  split
  next heq => exact (Nat.succ_ne_zero fuel heq).elim
  next fuel2 heq =>
    have hf : fuel = fuel2 := Nat.succ_injective heq
    subst hf
    split <;> simp_all

theorem ne_of_isAlpha (c x : Char) (h : c.isAlpha = true) (hx : x.isAlpha = false) :
    c ≠ x := by
  intro e
  rw [e, hx] at h
  exact Bool.false_ne_true h

theorem parseAttrs_gt (fuel : Nat) (rest : List Char) :
    parseAttrs (fuel + 1) ('>' :: rest) = ([], rest) := by
  simp [parseAttrs]

theorem parseAttrs_space (fuel : Nat) (rest : List Char) :
    parseAttrs (fuel + 1) (' ' :: rest) = parseAttrs fuel rest := by
  simp [parseAttrs]

theorem parseAttrs_name (fuel : Nat) (c : Char) (cs' n r2 v r3 : List Char)
    (hc : c.isAlpha = true)
    (hscan : scanWhile isNameChar (c :: cs') = (n, '=' :: '"' :: r2))
    (hv : scanWhile (fun x => x != '"') r2 = (v, '"' :: r3)) :
    parseAttrs (fuel + 1) (c :: cs') =
      ((lowerL n, unescape v) :: (parseAttrs fuel r3).1, (parseAttrs fuel r3).2) := by
  rw [parseAttrs.eq_def]
  have hgt : ¬c = '>' := ne_of_isAlpha c '>' hc (by decide)
  simp only [hgt, if_false, hc, if_true, hscan, hv]

theorem escTextC_shape (c : Char) : ∃ e tl, escTextC c = e :: tl ∧ e ≠ '<' := by
  unfold escTextC
  split
  · exact ⟨'&', _, rfl, by decide⟩
  · split
    · exact ⟨'&', _, rfl, by decide⟩
    · split
      · exact ⟨'&', _, rfl, by decide⟩
      · next _ h2 _ => exact ⟨c, [], rfl, h2⟩

theorem renderAttrs_head (a : List (List Char × List Char)) (X : List Char) :
    ∃ ch r, renderAttrs a ++ '>' :: X = ch :: r ∧ isNameChar ch = false := by
  cases a with
  | nil => exact ⟨'>', X, by simp [renderAttrs], by decide⟩
  | cons p a2 =>
    obtain ⟨n, v⟩ := p
    exact ⟨' ', n ++ '=' :: '"' :: escAttr v ++ '"' :: renderAttrs a2 ++ '>' :: X,
      by simp [renderAttrs], by decide⟩

theorem parseAttrs_render (a : List (List Char × List Char)) :
    ∀ fuel rest, wfAttrs a = true → 2 * a.length < fuel →
      parseAttrs fuel (renderAttrs a ++ '>' :: rest) = (a, rest) := by
  induction a with
  | nil =>
    intro fuel rest _ hfuel
    obtain ⟨f, rfl⟩ : ∃ f, fuel = f + 1 := ⟨fuel - 1, by omega⟩
    rw [show renderAttrs [] ++ '>' :: rest = '>' :: rest by simp [renderAttrs]]
    exact parseAttrs_gt f rest
  | cons p a2 ih =>
    obtain ⟨n, v⟩ := p
    intro fuel rest ha hfuel
    have hn : attrOk (n, v) = true := List.all_eq_true.mp ha (n, v) (by simp)
    have ha2 : wfAttrs a2 = true :=
      List.all_eq_true.mpr fun q hq => List.all_eq_true.mp ha q (by simp [hq])
    have hmem : n ∈ allowedAttrNames := by
      simp only [attrOk, Bool.and_eq_true] at hn
      simpa using hn.1
    obtain ⟨hne, hhead, hchars⟩ := allowedAttrNames_shape n hmem
    obtain ⟨c0, n', rfl⟩ : ∃ c0 n', n = c0 :: n' := by
      cases n with
      | nil => exact absurd rfl hne
      | cons c0 n' => exact ⟨c0, n', rfl⟩
    have hc0 : c0.isAlpha = true := by simpa using hhead
    obtain ⟨f, rfl⟩ : ∃ f, fuel = f + 2 := ⟨fuel - 2, by simp at hfuel; omega⟩
    have hform : renderAttrs ((c0 :: n', v) :: a2) ++ '>' :: rest
        = ' ' :: (c0 :: (n' ++
            ('=' :: '"' :: (escAttr v ++ '"' :: (renderAttrs a2 ++ '>' :: rest))))) := by
      simp [renderAttrs]
    rw [hform, parseAttrs_space]
    have hscan : scanWhile isNameChar (c0 :: (n' ++
        ('=' :: '"' :: (escAttr v ++ '"' :: (renderAttrs a2 ++ '>' :: rest)))))
        = (c0 :: n', '=' :: '"' :: (escAttr v ++ '"' :: (renderAttrs a2 ++ '>' :: rest))) := by
      have h1 : ∀ ch ∈ c0 :: n', isNameChar ch = true := List.all_eq_true.mp hchars
      have h2 := scanWhile_append isNameChar (c0 :: n')
        ('=' :: '"' :: (escAttr v ++ '"' :: (renderAttrs a2 ++ '>' :: rest))) h1
        (Or.inr ⟨'=', _, rfl, by decide⟩)
      simpa using h2
    have hv : scanWhile (fun x => x != '"')
        (escAttr v ++ '"' :: (renderAttrs a2 ++ '>' :: rest))
        = (escAttr v, '"' :: (renderAttrs a2 ++ '>' :: rest)) := by
      refine scanWhile_append _ (escAttr v) _ ?_ (Or.inr ⟨'"', _, rfl, by decide⟩)
      intro ch hch
      have hne2 : ch ≠ '"' := fun e => quot_not_mem_escAttr v (e ▸ hch)
      simpa using hne2
    rw [parseAttrs_name f c0 _ (c0 :: n') _ (escAttr v) _ hc0 hscan hv]
    rw [ih f rest ha2 (by simp at hfuel ⊢; omega)]
    rw [allowedAttrNames_lower _ hmem, unescape_escAttr]

theorem scanText_esc (s X : List Char) (hX : X = [] ∨ ∃ r, X = '<' :: r) :
    scanWhile (fun x => x != '<') (escText s ++ X) = (escText s, X) := by
  refine scanWhile_append _ (escText s) X ?_ ?_
  · intro ch hch
    have hne : ch ≠ '<' := fun e => lt_not_mem_escText s (e ▸ hch)
    simpa using hne
  · rcases hX with rfl | ⟨r, rfl⟩
    · exact Or.inl rfl
    · exact Or.inr ⟨'<', r, rfl, by decide⟩

theorem render_stopper (ns : List Node) (rest : List Char) (hh : headIsText ns = false)
    (hr : StopperL rest) :
    renderL ns ++ rest = [] ∨ ∃ r, renderL ns ++ rest = '<' :: r := by
  cases ns with
  | nil =>
    rcases hr with rfl | ⟨r, rfl⟩
    · exact Or.inl (by simp [renderL])
    · exact Or.inr ⟨'/' :: r, by simp [renderL]⟩
  | cons x ns2 =>
    cases x with
    | text s => simp [headIsText] at hh
    | elem t a c =>
      exact Or.inr ⟨t ++ renderAttrs a ++ '>' :: renderL c ++ '<' :: '/' :: t ++
        '>' :: renderL ns2 ++ rest, by simp [renderL, renderN]⟩

theorem parseNodes_render :
    ∀ fuel (f : List Node) (rest : List Char), wfList f = true → StopperL rest →
      sizeF f < fuel → parseNodes fuel (renderL f ++ rest) = (f, rest) := by
  intro fuel
  induction fuel with
  | zero =>
    intro f rest _ _ hsize
    omega
  | succ fuel ih =>
    intro f rest hwf hstop hsize
    cases f with
    | nil =>
      rw [show renderL [] ++ rest = rest by simp [renderL]]
      exact parseNodes_stopper (fuel + 1) rest hstop
    | cons x f2 =>
      cases x with
      | text s =>
        obtain ⟨hs, hh, hwf2⟩ := (wfList_text_iff s f2).mp hwf
        obtain ⟨c0, s', rfl⟩ : ∃ c0 s', s = c0 :: s' := by
          cases s with
          | nil => simp at hs
          | cons c0 s' => exact ⟨c0, s', rfl⟩
        obtain ⟨e, tl, hesc, helt⟩ := escTextC_shape c0
        have hdecomp : renderL (.text (c0 :: s') :: f2) ++ rest
            = e :: (tl ++ (escText s' ++ (renderL f2 ++ rest))) := by
          simp [renderL, renderN, escText, hesc]
        have hscan : scanWhile (fun x => x != '<')
            (escText (c0 :: s') ++ (renderL f2 ++ rest))
            = (escText (c0 :: s'), renderL f2 ++ rest) :=
          scanText_esc (c0 :: s') (renderL f2 ++ rest)
            (render_stopper f2 rest hh hstop)
        have hdecomp2 : escText (c0 :: s') ++ (renderL f2 ++ rest)
            = e :: (tl ++ (escText s' ++ (renderL f2 ++ rest))) := by
          simp [escText, hesc]
        rw [hdecomp2] at hscan
        rw [hdecomp, parseNodes_cons_text fuel e _ helt, hscan]
        have hsib : parseNodes fuel (renderL f2 ++ rest) = (f2, rest) := by
          refine ih f2 rest hwf2 hstop ?_
          simp only [sizeF] at hsize
          omega
        rw [hsib, unescape_escText]
      | elem t a c =>
        obtain ⟨hmem, hattr, hwfc, hwf2⟩ := (wfList_elem_iff t a c f2).mp hwf
        obtain ⟨hne, hhead, hchars⟩ := allowedTags_shape t hmem
        obtain ⟨c0, t', rfl⟩ : ∃ c0 t', t = c0 :: t' := by
          cases t with
          | nil => exact absurd rfl hne
          | cons c0 t' => exact ⟨c0, t', rfl⟩
        have hc0 : c0.isAlpha = true := by simpa using hhead
        have hform : renderL (.elem (c0 :: t') a c :: f2) ++ rest
            = '<' :: c0 :: (t' ++ (renderAttrs a ++ '>' ::
                (renderL c ++ ('<' :: '/' :: ((c0 :: t') ++ '>' ::
                  (renderL f2 ++ rest)))))) := by
          simp [renderL, renderN]
        rw [hform, parseNodes_cons_tag fuel c0 _ hc0]
        have hscan : scanWhile isNameChar (c0 :: (t' ++ (renderAttrs a ++ '>' ::
            (renderL c ++ ('<' :: '/' :: ((c0 :: t') ++ '>' ::
              (renderL f2 ++ rest)))))))
            = (c0 :: t', renderAttrs a ++ '>' ::
                (renderL c ++ ('<' :: '/' :: ((c0 :: t') ++ '>' ::
                  (renderL f2 ++ rest))))) := by
          obtain ⟨ch, rr, hr1, hr2⟩ := renderAttrs_head a
            (renderL c ++ ('<' :: '/' :: ((c0 :: t') ++ '>' :: (renderL f2 ++ rest))))
          have h1 : ∀ ch2 ∈ c0 :: t', isNameChar ch2 = true := List.all_eq_true.mp hchars
          have h2 := scanWhile_append isNameChar (c0 :: t')
            (renderAttrs a ++ '>' :: (renderL c ++ ('<' :: '/' :: ((c0 :: t') ++ '>' ::
              (renderL f2 ++ rest))))) h1 (Or.inr ⟨ch, rr, hr1, hr2⟩)
          simpa using h2
        rw [hscan]
        simp only [sizeF] at hsize
        have hattrs : parseAttrs (fuel + 1) (renderAttrs a ++ '>' ::
            (renderL c ++ ('<' :: '/' :: ((c0 :: t') ++ '>' :: (renderL f2 ++ rest)))))
            = (a, renderL c ++ ('<' :: '/' :: ((c0 :: t') ++ '>' ::
                (renderL f2 ++ rest)))) :=
          parseAttrs_render a (fuel + 1) _ hattr (by omega)
        rw [hattrs]
        have hch : parseNodes fuel (renderL c ++ ('<' :: '/' :: ((c0 :: t') ++ '>' ::
            (renderL f2 ++ rest)))) = (c, '<' :: '/' :: ((c0 :: t') ++ '>' ::
              (renderL f2 ++ rest))) :=
          ih c _ hwfc (Or.inr ⟨_, rfl⟩) (by omega)
        rw [hch]
        rw [allowedTags_lower _ hmem]
        rw [expectClose_append (c0 :: t') (renderL f2 ++ rest)]
        rw [ih f2 rest hwf2 hstop (by omega)]

theorem escTextC_len (c : Char) : 1 ≤ (escTextC c).length := by
  unfold escTextC
  split
  · decide
  · split
    · decide
    · split
      · decide
      · simp

theorem escText_len (s : List Char) : s.length ≤ (escText s).length := by
  induction s with
  | nil => simp [escText]
  | cons c cs ih =>
    have := escTextC_len c
    simp only [escText, List.length_append, List.length_cons]
    omega

theorem renderAttrs_len (a : List (List Char × List Char)) :
    2 * a.length ≤ (renderAttrs a).length := by
  induction a with
  | nil => simp [renderAttrs]
  | cons p a2 ih =>
    obtain ⟨n, v⟩ := p
    simp only [renderAttrs, List.length_cons, List.length_append]
    omega

theorem renderL_len (f : List Node) :
    wfList f = true → sizeF f ≤ (renderL f).length := by
  induction f using forestInd with
  | h0 => simp [renderL, sizeF]
  | ht s ns ih =>
    intro h
    obtain ⟨hs, _, hns⟩ := (wfList_text_iff s ns).mp h
    have h1 : 1 ≤ s.length := by
      cases s with
      | nil => simp at hs
      | cons _ _ => simp
    have h2 := escText_len s
    have h3 := ih hns
    simp only [sizeF, renderL, renderN, List.length_append, List.length_cons]
    omega
  | he t a c ns ih1 ih2 =>
    intro h
    obtain ⟨_, _, hc, hns⟩ := (wfList_elem_iff t a c ns).mp h
    have h1 := renderAttrs_len a
    have h2 := ih1 hc
    have h3 := ih2 hns
    simp only [sizeF, renderL, renderN, List.length_append, List.length_cons]
    omega

theorem parseTopL_render (f : List Node) (h : wfList f = true) :
    parseTopL (renderL f) = f := by
  have hlen := renderL_len f h
  have hp : parseNodes ((renderL f).length + 1) (renderL f) = (f, []) := by
    have h2 := parseNodes_render ((renderL f).length + 1) f [] h (Or.inl rfl)
      (by omega)
    simpa using h2
  rw [parseTopL, parseTopAux]
  simp [hp]

/-! ## The sanitizer theorems -/

theorem parseTopL_sanitizeL (cs : List Char) :
    parseTopL (sanitizeL cs) = cleanF (parseTopL cs) :=
  parseTopL_render (cleanF (parseTopL cs)) (cleanF_wf (parseTopL cs))

theorem sanitizeL_idem (cs : List Char) :
    sanitizeL (sanitizeL cs) = sanitizeL cs := by
  have hwf : wfList (cleanF (parseTopL cs)) = true := cleanF_wf (parseTopL cs)
  show renderL (cleanF (parseTopL (sanitizeL cs))) = sanitizeL cs
  rw [parseTopL_sanitizeL, cleanF_id (cleanF (parseTopL cs)) hwf]
  rfl

/-! ## Claim theorems -/

/-- C1: For every stored record, the derived read-path value (the `html`
property) equals the raw stored body when the allow-JavaScript flag is true,
and equals `sanitize` of the body when the flag is false; in particular, with
`allow_javascript = true` the returned value is the body unchanged, including
any script element. -/
theorem html_read_path (b : HTML5XBlock) :
    (b.allow_javascript = true → b.html = b.data) ∧
    (b.allow_javascript = false → b.html = sanitize b.data) := by
  constructor <;> intro h <;>
    simp [HTML5XBlock.html, HTML5XBlock.sanitized_html, h]

/-- Witness for C1 at a concrete record whose body contains a script
element. -/
theorem html_read_path_witness :
    (HTML5XBlock.mk "Text" "<b>hi</b><script>alert(1)</script>" true "visual").html
      = "<b>hi</b><script>alert(1)</script>" ∧
    (HTML5XBlock.mk "Text" "<b>hi</b><script>alert(1)</script>" false "visual").html
      = sanitize "<b>hi</b><script>alert(1)</script>" :=
  ⟨(html_read_path _).1 rfl, (html_read_path _).2 rfl⟩

/-- C2: For every input string, the sanitizer output contains no `script`
element and no attribute whose name begins with `on` (stated on the parsed
structure of the output string). -/
theorem sanitize_no_script (x : String) :
    noScriptF (parseTopL (sanitize x).data) = true := by
  show noScriptF (parseTopL (sanitizeL x.data)) = true
  rw [parseTopL_sanitizeL]
  exact wf_noScript _ (cleanF_wf _)

/-- C3: The sanitizer is idempotent: sanitizing already-sanitized output is a
no-op. -/
theorem sanitize_idempotent (x : String) : sanitize (sanitize x) = sanitize x := by
  show String.mk (sanitizeL (sanitize x).data) = sanitize x
  have h : (sanitize x).data = sanitizeL x.data := rfl
  rw [h, sanitizeL_idem]
  rfl

/-- C4: An anchor whose `href` uses the unsafe `javascript:` scheme has that
attribute dropped, an anchor whose `href` uses the safe `https:` scheme is
preserved unchanged, and in general every `href`/`src` value surviving
sanitization has a safe scheme (http, https, mailto or a relative path). -/
theorem sanitize_safe_schemes :
    sanitize "<a href=\"javascript:alert(1)\">link</a>" = "<a>link</a>" ∧
    sanitize "<a href=\"https://example.com\">link</a>"
      = "<a href=\"https://example.com\">link</a>" ∧
    ∀ x : String, urlSafeF (parseTopL (sanitize x).data) = true := by
  refine ⟨by decide, by decide, fun x => ?_⟩
  show urlSafeF (parseTopL (sanitizeL x.data)) = true
  rw [parseTopL_sanitizeL]
  exact wf_urlSafe _ (cleanF_wf _)

theorem sanitizeL_no_lt (l : List Char) (h : '<' ∉ l) :
    sanitizeL l = escText (unescape l) := by
  cases l with
  | nil => rfl
  | cons c tl =>
    have hc : c ≠ '<' := fun e => h (e ▸ List.mem_cons_self c tl)
    have hscan : scanWhile (fun x => x != '<') (c :: tl) = (c :: tl, []) := by
      have h2 := scanWhile_append (fun x => x != '<') (c :: tl) []
        (fun ch hch => by
          have hne : ch ≠ '<' := fun e => h (e ▸ hch)
          simpa using hne)
        (Or.inl rfl)
      simpa using h2
    have hparse : parseTopL (c :: tl) = [.text (unescape (c :: tl))] := by
      show parseTopAux ((c :: tl).length + 1) (c :: tl) = _
      rw [show (c :: tl).length + 1 = (tl.length + 1) + 1 by simp]
      rw [parseTopAux]
      rw [parseNodes_cons_text (tl.length + 1) c tl hc, hscan]
      simp [parseNodes_stopper (tl.length + 1) [] (Or.inl rfl)]
    show renderL (cleanF (parseTopL (c :: tl))) = _
    rw [hparse]
    by_cases hu : (unescape (c :: tl)).isEmpty
    · have hnil : unescape (c :: tl) = [] := by simpa using hu
      simp [cleanF, cleanList, cleanN, normList, hu, renderL, hnil, escText]
    · simp [cleanF, cleanList, cleanN, normList, hu, renderL, renderN]

/-- C5: The sanitizer is a total function: it returns normally on every input,
including malformed or unclosed markup; on input that contains no markup
structure at all it degrades to escaped plain text, and on unclosed or stray
markup it still produces a normal result. -/
theorem sanitize_total_fallback :
    (∀ s : String, '<' ∉ s.data → sanitize s = String.mk (escText (unescape s.data))) ∧
    sanitize "<b>unclosed" = "<b>unclosed</b>" ∧
    sanitize "a < b" = "a &lt; b" := by
  refine ⟨fun s hs => ?_, by decide, by decide⟩
  show String.mk (sanitizeL s.data) = _
  rw [sanitizeL_no_lt s.data hs]

/-- Witness for C5: a concrete script-free input with an entity, left intact
(escape of its decoding). -/
theorem sanitize_total_fallback_witness :
    ('<' ∉ "1 &lt; 2".data) ∧ sanitize "1 &lt; 2" = "1 &lt; 2" := by
  refine ⟨by decide, ?_⟩
  have h := sanitize_total_fallback.1 "1 &lt; 2" (by decide)
  rw [h]
  decide

/-- C6: For every string value `c`, the update-content handler called with a
payload binding "content" to `c` sets the stored body to exactly `c` — with no
sanitization, size limit or content-type check — and returns a dictionary
echoing `c` back. -/
theorem update_content_verbatim (b : HTML5XBlock)
    (payload : List (String × String)) (c : String)
    (h : List.lookup "content" payload = some c) :
    b.update_content payload
      = ({ b with data := c }, Except.ok [("content", c)]) := by
  unfold HTML5XBlock.update_content
  rw [h]

/-- Witness for C6 at the spec's concrete payload. -/
theorem update_content_verbatim_witness :
    HTML5XBlock.update_content ⟨"Text", "", false, "visual"⟩
        [("content", "<i>new</i>")]
      = (⟨"Text", "<i>new</i>", false, "visual"⟩,
         Except.ok [("content", "<i>new</i>")]) :=
  update_content_verbatim ⟨"Text", "", false, "visual"⟩
    [("content", "<i>new</i>")] "<i>new</i>" (by decide)

/-- C7: Reading `html` never modifies the stored body (the read path is a pure
function of the record and sanitization is applied only at read time): turning
`allow_javascript` off leaves the stored body intact and the read path then
yields the sanitized value, and turning it back on makes the read path return
the original body, script content included. -/
theorem html_read_frame (b : HTML5XBlock) :
    ({ b with allow_javascript := false }).data = b.data ∧
    ({ b with allow_javascript := false }).html = sanitize b.data ∧
    ({ { b with allow_javascript := false } with allow_javascript := true }).html
      = b.data := by
  refine ⟨rfl, ?_, rfl⟩
  simp [HTML5XBlock.html, HTML5XBlock.sanitized_html]

/-- C8: The sanitizer is deterministic and side-effect free; in the embedding
this is reflected by `sanitized_html` depending only on the stored body: two
records with the same body (whatever their other fields) sanitize to the same
output. -/
theorem sanitized_html_pure (b b2 : HTML5XBlock) (h : b.data = b2.data) :
    b.sanitized_html = b2.sanitized_html := by
  unfold HTML5XBlock.sanitized_html
  rw [h]

/-- Witness for C8: records differing in every other field. -/
theorem sanitized_html_pure_witness :
    (HTML5XBlock.mk "A" "<b>x</b>" false "visual").sanitized_html
      = (HTML5XBlock.mk "B" "<b>x</b>" true "raw").sanitized_html :=
  sanitized_html_pure (HTML5XBlock.mk "A" "<b>x</b>" false "visual")
    (HTML5XBlock.mk "B" "<b>x</b>" true "raw") rfl

/-- C9: The translation-bundle lookup returns the path of the first existing
candidate among full locale code, bare language code, then English, in that
order; with no locale, or when no candidate exists, it returns `none` rather
than raising. -/
theorem statici18n_fallback (ex : String → Bool) :
    HTML5XBlock.get_statici18n_js_url none ex = none ∧
    ∀ lc : String,
      (ex (text_js lc) = true →
        HTML5XBlock.get_statici18n_js_url (some lc) ex = some (text_js lc)) ∧
      (ex (text_js lc) = false → ex (text_js (langCode lc)) = true →
        HTML5XBlock.get_statici18n_js_url (some lc) ex
          = some (text_js (langCode lc))) ∧
      (ex (text_js lc) = false → ex (text_js (langCode lc)) = false →
        ex (text_js "en") = true →
        HTML5XBlock.get_statici18n_js_url (some lc) ex = some (text_js "en")) ∧
      (ex (text_js lc) = false → ex (text_js (langCode lc)) = false →
        ex (text_js "en") = false →
        HTML5XBlock.get_statici18n_js_url (some lc) ex = none) := by
  refine ⟨rfl, fun lc => ⟨fun h1 => ?_, fun h1 h2 => ?_, fun h1 h2 h3 => ?_,
    fun h1 h2 h3 => ?_⟩⟩ <;>
    simp [HTML5XBlock.get_statici18n_js_url, firstExisting, h1, *]

/-- Witness for C9: locale `fr-CA` with only the English bundle present falls
back to English. -/
theorem statici18n_fallback_witness :
    HTML5XBlock.get_statici18n_js_url (some "fr-CA") (fun p => p == text_js "en")
      = some (text_js "en") :=
  ((statici18n_fallback (fun p => p == text_js "en")).2 "fr-CA").2.2.1
    (by decide) (by decide) (by decide)

/-- C10: If the update-content handler is invoked with a payload that has no
"content" key, it raises (the dictionary access fails) before any assignment,
and the stored body is left unchanged. -/
theorem update_content_missing_key (b : HTML5XBlock)
    (payload : List (String × String))
    (h : List.lookup "content" payload = none) :
    b.update_content payload = (b, Except.error "KeyError: content") := by
  unfold HTML5XBlock.update_content
  rw [h]

/-- Witness for C10 at the empty payload. -/
theorem update_content_missing_key_witness :
    HTML5XBlock.update_content ⟨"Text", "body", false, "visual"⟩ []
      = (⟨"Text", "body", false, "visual"⟩, Except.error "KeyError: content") :=
  update_content_missing_key ⟨"Text", "body", false, "visual"⟩ [] rfl
